import Mathlib

/-!
Verification development for the rowlock library (src/rowlock.go).

The library maintains a `RowLock` value with two fields:
 - `locks : sync.Map`, binding row keys to `sync.Locker` instances, and
 - `lockerPool : sync.Pool`, a reuse cache of idle `sync.Locker` instances
   whose `New` function calls the user-supplied factory `f : NewLocker`.

We embed the state shallowly.  Locker instances are identified by natural
numbers handed out by an allocation counter `nextId`; the factory hands out
a fresh identifier on every call (the Go factory allocates a fresh object).
The `locks` table is an insertion-ordered association list.  `sync.Pool` is
deliberately nondeterministic in Go (`Get` may return any previously `Put`
value or miss and call `New`; `Put` may silently drop the value), so each
pool interaction is parametrised by an explicit `PoolChoice` resolving that
nondeterminism; theorems quantify over all choices.
-/

set_option linter.unusedSectionVars false

namespace Rowlock

/-- A resolution of the nondeterminism of one `sync.Pool` interaction:
`getIdx` says which idle pooled element (if any) `Get` returns — `none`, or
an out-of-range index, is a miss, in which case `New` (the factory) runs —
and `keep` says whether a subsequent `Put` retains the value or drops it. -/
structure PoolChoice where
  getIdx : Option Nat
  keep : Bool
deriving Repr, DecidableEq

/-- The state of one `RowLock` value, together with the state of the locker
instances it has allocated.  `locks` is the `sync.Map` (insertion-ordered
association list from row key to locker id), `pool` holds the idle locker
ids currently retained by the `sync.Pool`, `nextId` is the allocation
counter of the factory, `locked` is the set of locker ids currently held,
and `everLocked` records every id on which `Lock()` was ever invoked. -/
structure RLState (Row : Type) where
  locks : List (Row × Nat)
  pool : List Nat
  nextId : Nat
  locked : List Nat
  everLocked : List Nat
deriving Repr, DecidableEq

variable {Row : Type} [DecidableEq Row]

/-- The state of a freshly constructed `RowLock` (`NewRowLock`): empty
table, empty pool, nothing allocated, nothing locked. -/
def initState : RLState Row :=
  { locks := [], pool := [], nextId := 0, locked := [], everLocked := [] }

/-- Lookup in the `sync.Map`: the value bound to `r`, if any. -/
def lookupRow {V : Type} (t : List (Row × V)) (r : Row) : Option V :=
  match t with
  | [] => none
  | p :: rest => if p.1 = r then some p.2 else lookupRow rest r

/-- `rl.lockerPool.Get()`: return a pooled idle instance selected by the
choice, or (on a miss) allocate a fresh instance via the factory `New`. -/
def poolGet (c : Option Nat) (s : RLState Row) : Nat × RLState Row :=
  match c with
  | some i =>
    if h : i < s.pool.length then
      (s.pool.get ⟨i, h⟩, { s with pool := s.pool.eraseIdx i })
    else
      (s.nextId, { s with nextId := s.nextId + 1 })
  | none => (s.nextId, { s with nextId := s.nextId + 1 })

/-- `rl.lockerPool.Put(x)`: the pool either retains `x` or silently drops
it, according to the choice. -/
def poolPut (keep : Bool) (x : Nat) (s : RLState Row) : RLState Row :=
  if keep then { s with pool := x :: s.pool } else s

/-- `sync.Map.LoadOrStore(key, v)`: atomically, if `key` is present return
the existing value with `loaded = true` and leave the map unchanged;
otherwise store `v`, return it, and report `loaded = false`.  Result is
`(actual, loaded, new table)`. -/
def loadOrStore {V : Type} (t : List (Row × V)) (key : Row) (v : V) :
    V × Bool × List (Row × V) :=
  match lookupRow t key with
  | some l => (l, true, t)
  | none => (v, false, t ++ [(key, v)])

/-- `(rl *RowLock).getLocker(row)` from src/rowlock.go lines 57-64:
acquire a candidate from the pool, `LoadOrStore(row, candidate)`; if the
value was already loaded, release the candidate back to the pool; return
the stored locker. -/
def getLocker (c : PoolChoice) (row : Row) (s : RLState Row) :
    Nat × RLState Row :=
  let acq := poolGet c.getIdx s
  let res := loadOrStore acq.2.locks row acq.1
  if res.2.1 then
    (res.1, poolPut c.keep acq.1 acq.2)
  else
    (res.1, { acq.2 with locks := res.2.2 })

/-- `(rl *RowLock).Lock(row)`: resolve the row's locker and invoke
`Lock()` on it.  The locker-level `Lock()` does not touch the table or the
pool; we record acquisition in `locked` and in the history `everLocked`. -/
def lockOp (c : PoolChoice) (row : Row) (s : RLState Row) :
    Nat × RLState Row :=
  let res := getLocker c row s
  (res.1, { res.2 with
              locked := res.1 :: res.2.locked,
              everLocked := res.1 :: res.2.everLocked })

/-- `(rl *RowLock).Unlock(row)`: resolve the row's locker and invoke
`Unlock()` on it.  The locker-level `Unlock()` does not touch the table or
the pool; we record the release in `locked`. -/
def unlockOp (c : PoolChoice) (row : Row) (s : RLState Row) :
    Nat × RLState Row :=
  let res := getLocker c row s
  (res.1, { res.2 with locked := res.2.locked.erase res.1 })

/-- The operations a client can perform on one `RowLock`. -/
inductive Op (Row : Type) where
  | lock (r : Row)
  | unlock (r : Row)
  | getL (r : Row)
deriving Repr, DecidableEq

/-- The row key an operation resolves (every operation calls `getLocker`
with its row). -/
def Op.row : Op Row → Row
  | .lock r => r
  | .unlock r => r
  | .getL r => r

/-- Whether an operation is a `Lock` call. -/
def Op.isLock : Op Row → Bool
  | .lock _ => true
  | _ => false

/-- Apply one operation, yielding the locker it resolved and the new
state. -/
def applyOp (c : PoolChoice) (o : Op Row) (s : RLState Row) :
    Nat × RLState Row :=
  match o with
  | .lock r => lockOp c r s
  | .unlock r => unlockOp c r s
  | .getL r => getLocker c r s

/-- Run a sequence of operations; `cs k` resolves the pool nondeterminism
of the operation at absolute index `k`, and `k` is the index of the first
operation of `ops`.  Returns the trace of resolved locker ids and the
final state. -/
def runFrom (cs : Nat → PoolChoice) (k : Nat) (ops : List (Op Row))
    (s : RLState Row) : List Nat × RLState Row :=
  match ops with
  | [] => ([], s)
  | o :: rest =>
    let r := applyOp (cs k) o s
    let t := runFrom cs (k + 1) rest r.2
    (r.1 :: t.1, t.2)

/-- Run a sequence of operations on a freshly constructed `RowLock`. -/
def run (cs : Nat → PoolChoice) (ops : List (Op Row)) :
    List Nat × RLState Row :=
  runFrom cs 0 ops initState

/-- The pool behaviour in which `Acquire` always misses (always constructs
a fresh locker via the factory) and `Release` always drops. -/
def freshChoices : Nat → PoolChoice := fun _ => { getIdx := none, keep := false }

/-- A state some sequence of operations on a freshly constructed `RowLock`
can reach. -/
def ReachableRL (s : RLState Row) : Prop :=
  ∃ cs ops, (run cs ops).2 = s

/-! ### The spec side: `GetOrInsert` and `Resolve` as the spec words them

These two definitions are written from the specification text, to be
compared with the definitions above, which are written from the source. -/

/-- The Keyed Lock Table operation of spec section 4.3, written from the
spec text: "`GetOrInsert(key, candidate) -> (bound, didInsert)`:
atomically checks whether `key` is already bound; if not, binds
`candidate` and returns `(candidate, true)`; if already bound, returns
`(existing, false)` and leaves `candidate` unbound."  The result is
`(bound, didInsert, new table)`. -/
def getOrInsert (key : Row) (cand : Nat) (t : List (Row × Nat)) :
    Nat × Bool × List (Row × Nat) :=
  match lookupRow t key with
  | some existing => (existing, false, t)
  | none => (cand, true, t ++ [(key, cand)])

/-- `Resolve(row)` of spec section 4.4, written from the spec text:
1. `Pool.Acquire()` to obtain a candidate Locker.
2. `Table.GetOrInsert(row, candidate)`.
3. If `didInsert` is true, the candidate becomes the row's Locker;
   return it.
4. If `didInsert` is false, `Pool.Release(candidate)` to recycle the
   losing candidate, and return the bound Locker from step 2. -/
def resolveSpec (c : PoolChoice) (row : Row) (s : RLState Row) :
    Nat × RLState Row :=
  let acq := poolGet c.getIdx s
  let goi := getOrInsert row acq.1 acq.2.locks
  if goi.2.1 then
    (goi.1, { acq.2 with locks := goi.2.2 })
  else
    (goi.1, poolPut c.keep acq.1 { acq.2 with locks := goi.2.2 })

/-! ### The dynamic-typing model for the facade's type assertion

`sync.Map` stores values of interface type; the last line of `getLocker`
asserts the stored value back to `sync.Locker`.  To state that this
assertion never fails we model stored values as Go dynamic values. -/

/-- A value as stored in the `sync.Map` through Go's interface type:
either a locker instance or some non-Locker value.  The facade's type
assertion `locker.(sync.Locker)` succeeds exactly on `lk`. -/
inductive GoVal where
  | lk (n : Nat)
  | notLocker
deriving Repr, DecidableEq

/-- `RowLock` state in the dynamic-typing model: the table and the pool
hold dynamic values. -/
structure DState (Row : Type) where
  locks : List (Row × GoVal)
  pool : List GoVal
  nextId : Nat
deriving Repr, DecidableEq

/-- Initial state in the dynamic-typing model. -/
def initStateD : DState Row :=
  { locks := [], pool := [], nextId := 0 }

/-- `rl.lockerPool.Get()` in the dynamic-typing model; on a miss the
factory runs, and — as the claim assumes a factory that always returns a
non-nil Locker — yields a locker instance. -/
def poolGetD (c : Option Nat) (s : DState Row) : GoVal × DState Row :=
  match c with
  | some i =>
    if h : i < s.pool.length then
      (s.pool.get ⟨i, h⟩, { s with pool := s.pool.eraseIdx i })
    else
      (GoVal.lk s.nextId, { s with nextId := s.nextId + 1 })
  | none => (GoVal.lk s.nextId, { s with nextId := s.nextId + 1 })

/-- `rl.lockerPool.Put(x)` in the dynamic-typing model. -/
def poolPutD (keep : Bool) (x : GoVal) (s : DState Row) : DState Row :=
  if keep then { s with pool := x :: s.pool } else s

/-- `getLocker` including its final type assertion
`locker.(sync.Locker)`: the result is `none` exactly when the assertion
would fault. -/
def getLockerD (c : PoolChoice) (row : Row) (s : DState Row) :
    Option (Nat × DState Row) :=
  let acq := poolGetD c.getIdx s
  let res := loadOrStore acq.2.locks row acq.1
  let s2 := if res.2.1 then poolPutD c.keep acq.1 acq.2
            else { acq.2 with locks := res.2.2 }
  match res.1 with
  | GoVal.lk n => some (n, s2)
  | GoVal.notLocker => none

/-- Run a sequence of facade operations in the dynamic-typing model;
every facade operation (`Lock`, `Unlock`, `getLocker`) resolves through
`getLockerD`, and the run faults (`none`) if any type assertion fails. -/
def runD (cs : Nat → PoolChoice) (k : Nat) (ops : List (Op Row))
    (s : DState Row) : Option (DState Row) :=
  match ops with
  | [] => some s
  | o :: rest =>
    match getLockerD (cs k) o.row s with
    | some r => runD cs (k + 1) rest r.2
    | none => none

/-- In the dynamic-typing model: every value stored in the table and
every value idle in the pool is a locker instance. -/
def DOk (s : DState Row) : Prop :=
  (∀ p ∈ s.locks, ∃ n, p.2 = GoVal.lk n) ∧
  (∀ v ∈ s.pool, ∃ n, v = GoVal.lk n)

/-! ### The concurrent model

An arbitrary number of client threads share one `RowLock`.  Each facade
call is two atomic actions: the `getLocker` resolution (atomic because
`sync.Map.LoadOrStore` is), and the locker-level `Lock()`/`Unlock()`.
The locker-level semantics — `Lock()` blocks until exclusive ownership,
`Unlock()` releases it — is modelled from the spec (section 4.1 Locker
contract); `sync.Mutex` itself is not part of this repository's source. -/

/-- The control state of one client thread: idle, or between the
`getLocker` resolution of a `Lock(r)` call and the acquisition of the
resolved locker `l`, or inside the critical section for `r` holding
`l`. -/
inductive TPC (Row : Type) where
  | idle
  | waiting (r : Row) (l : Nat)
  | inCrit (r : Row) (l : Nat)
deriving Repr, DecidableEq

/-- Global state of the concurrent model: the shared `RowLock` state and
the control state of each thread. -/
structure CState (Row : Type) where
  rl : RLState Row
  threads : List (TPC Row)
deriving Repr, DecidableEq

/-- Initial global state: a fresh `RowLock` and `n` idle threads. -/
def initC (n : Nat) : CState Row :=
  { rl := initState, threads := List.replicate n TPC.idle }

/-- Replace the control state of thread `i`. -/
def setThread (ts : List (TPC Row)) (i : Nat) (p : TPC Row) :
    List (TPC Row) :=
  ts.set i p

/-- The global state after thread `i` performs the atomic `getLocker`
resolution at the start of a `Lock(r)` call. -/
def resolveStep (c : PoolChoice) (i : Nat) (r : Row) (s : CState Row) :
    CState Row :=
  { rl := (getLocker c r s.rl).2,
    threads := setThread s.threads i (TPC.waiting r (getLocker c r s.rl).1) }

/-- The global state after thread `i` acquires the locker `l` it resolved
for row `r`. -/
def acquireStep (i : Nat) (r : Row) (l : Nat) (s : CState Row) :
    CState Row :=
  { rl := { s.rl with
              locked := l :: s.rl.locked,
              everLocked := l :: s.rl.everLocked },
    threads := setThread s.threads i (TPC.inCrit r l) }

/-- The global state after thread `i` performs `Unlock(r)`: the atomic
`getLocker` resolution followed by the locker-level `Unlock()` of the
resolved locker. -/
def releaseStep (c : PoolChoice) (i : Nat) (r : Row) (s : CState Row) :
    CState Row :=
  { rl := { (getLocker c r s.rl).2 with
              locked := ((getLocker c r s.rl).2.locked.erase
                ((getLocker c r s.rl).1)) },
    threads := setThread s.threads i TPC.idle }

/-- One atomic step of the concurrent model.
`resolve`: an idle thread starts `Lock(r)` and performs the atomic
`getLocker` resolution.  `acquire`: a thread waiting on the resolved
locker obtains it when no thread holds it (the Locker contract of spec
section 4.1).  `release`: a thread inside the critical section performs
`Unlock(r)` — the `getLocker` resolution followed by the locker-level
`Unlock()` — and becomes idle. -/
inductive CStep : CState Row → CState Row → Prop where
  | resolve (s : CState Row) (i : Nat) (r : Row) (c : PoolChoice)
      (hi : s.threads.get? i = some TPC.idle) :
      CStep s (resolveStep c i r s)
  | acquire (s : CState Row) (i : Nat) (r : Row) (l : Nat)
      (hi : s.threads.get? i = some (TPC.waiting r l))
      (hfree : l ∉ s.rl.locked) :
      CStep s (acquireStep i r l s)
  | release (s : CState Row) (i : Nat) (r : Row) (l : Nat) (c : PoolChoice)
      (hi : s.threads.get? i = some (TPC.inCrit r l)) :
      CStep s (releaseStep c i r s)

/-- Reachability in the concurrent model from any number of threads. -/
inductive ReachC : CState Row → Prop where
  | init (n : Nat) : ReachC (initC n : CState Row)
  | step {s t : CState Row} : ReachC s → CStep s t → ReachC t

/-! ### Invariants -/

/-- The inductive invariant of a `RowLock` state: row keys and bound
locker ids are pairwise distinct, the pool holds pairwise distinct ids
disjoint from the bound ones, every handed-out id is below the allocation
counter, and only bound lockers have ever been locked. -/
structure Inv (s : RLState Row) : Prop where
  keysNodup : (s.locks.map Prod.fst).Nodup
  valsNodup : (s.locks.map Prod.snd).Nodup
  poolNodup : s.pool.Nodup
  boundLt : ∀ p ∈ s.locks, p.2 < s.nextId
  poolLt : ∀ x ∈ s.pool, x < s.nextId
  poolBound : ∀ x ∈ s.pool, ∀ p ∈ s.locks, x ≠ p.2
  evBound : ∀ x ∈ s.everLocked, ∃ p ∈ s.locks, p.2 = x

/-- The inductive invariant of the concurrent model: the shared state
satisfies `Inv`, every non-idle thread's locker is the one bound to its
row, lockers inside critical sections are exactly the held ones, and no
two threads are inside critical sections with the same locker. -/
structure CInv (s : CState Row) : Prop where
  inv : Inv s.rl
  waitingBound : ∀ i r l, s.threads.get? i = some (TPC.waiting r l) →
    lookupRow s.rl.locks r = some l
  critBound : ∀ i r l, s.threads.get? i = some (TPC.inCrit r l) →
    lookupRow s.rl.locks r = some l
  critHeld : ∀ i r l, s.threads.get? i = some (TPC.inCrit r l) →
    l ∈ s.rl.locked
  lockedCrit : ∀ x ∈ s.rl.locked, ∃ i r,
    s.threads.get? i = some (TPC.inCrit r x)
  critInj : ∀ i j r r' l l', i ≠ j →
    s.threads.get? i = some (TPC.inCrit r l) →
    s.threads.get? j = some (TPC.inCrit r' l') → l ≠ l'
  lockedNodup : s.rl.locked.Nodup

/-! ### Lemmas about `lookupRow` -/

theorem lookupRow_append_of_none {V : Type} {t : List (Row × V)} {r : Row}
    (h : lookupRow t r = none) (e : List (Row × V)) :
    lookupRow (t ++ e) r = lookupRow e r := by
  induction t with
  | nil => rfl
  | cons p rest ih =>
    by_cases hp : p.1 = r
    · simp [lookupRow, hp] at h
    · simp only [lookupRow, hp, if_false] at h
      simpa [lookupRow, hp] using ih h

theorem lookupRow_append_some {V : Type} {t : List (Row × V)} {r : Row}
    {v : V} (h : lookupRow t r = some v) (e : List (Row × V)) :
    lookupRow (t ++ e) r = some v := by
  induction t with
  | nil => simp [lookupRow] at h
  | cons p rest ih =>
    by_cases hp : p.1 = r
    · simp only [lookupRow, hp, if_true] at h
      simpa [lookupRow, hp] using h
    · simp only [lookupRow, hp, if_false] at h
      simpa [lookupRow, hp] using ih h

theorem lookupRow_none_iff {V : Type} {t : List (Row × V)} {r : Row} :
    lookupRow t r = none ↔ ∀ p ∈ t, p.1 ≠ r := by
  induction t with
  | nil => simp [lookupRow]
  | cons p rest ih =>
    by_cases hp : p.1 = r <;> simp [lookupRow, hp, ih]

theorem lookupRow_mem {V : Type} {t : List (Row × V)} {r : Row} {v : V}
    (h : lookupRow t r = some v) : (r, v) ∈ t := by
  induction t with
  | nil => simp [lookupRow] at h
  | cons p rest ih =>
    by_cases hp : p.1 = r
    · simp only [lookupRow, hp, if_true, Option.some.injEq] at h
      have hpv : p = (r, v) := Prod.ext hp h
      rw [← hpv]
      exact List.mem_cons_self _ _
    · simp only [lookupRow, hp, if_false] at h
      exact List.mem_cons_of_mem _ (ih h)

theorem lookupRow_singleton_self {V : Type} (key : Row) (v : V) :
    lookupRow [(key, v)] key = some v := by
  simp [lookupRow]

theorem mem_snd_inj {t : List (Row × Nat)} (hv : (t.map Prod.snd).Nodup)
    {a b : Row} {v : Nat} (ha : (a, v) ∈ t) (hb : (b, v) ∈ t) : a = b := by
  induction t with
  | nil => simp at ha
  | cons p rest ih =>
    simp only [List.map_cons, List.nodup_cons] at hv
    rcases List.mem_cons.1 ha with ha1 | ha2 <;>
      rcases List.mem_cons.1 hb with hb1 | hb2
    · exact congrArg Prod.fst (ha1.trans hb1.symm)
    · exact absurd (List.mem_map_of_mem Prod.snd hb2)
        (by simpa [← congrArg Prod.snd ha1] using hv.1)
    · exact absurd (List.mem_map_of_mem Prod.snd ha2)
        (by simpa [← congrArg Prod.snd hb1] using hv.1)
    · exact ih hv.2 ha2 hb2

/-! ### Claims C1 and C5: the Resolve algorithm and the table contract -/

/-- Claim C1: `getLocker` implements the spec's Resolve algorithm exactly.
It acquires a candidate from the pool, performs the table's atomic
insert-if-absent with the row and the candidate; an inserted candidate is
returned and not released to the pool; a losing candidate is released back
to the pool and the previously bound Locker is returned.  The two
functions agree for every pool choice, row key and table state. -/
theorem getLocker_implements_resolve (c : PoolChoice) (row : Row)
    (s : RLState Row) : getLocker c row s = resolveSpec c row s := by
  unfold getLocker resolveSpec loadOrStore getOrInsert
  cases h : lookupRow (poolGet c.getIdx s).2.locks row <;> simp [h]

/-- Claim C5: `sync.Map.LoadOrStore` as used by `getLocker` satisfies the
spec's GetOrInsert contract: its result agrees with `getOrInsert` (with
`loaded` the negation of `didInsert`); on an unbound key it binds the
candidate and returns it, and on a bound key it returns the existing
locker and leaves the table (and the candidate) unchanged. -/
theorem loadOrStore_meets_getOrInsert (t : List (Row × Nat)) (key : Row)
    (cand : Nat) :
    (loadOrStore t key cand).1 = (getOrInsert key cand t).1 ∧
    (loadOrStore t key cand).2.1 = !(getOrInsert key cand t).2.1 ∧
    (loadOrStore t key cand).2.2 = (getOrInsert key cand t).2.2 ∧
    (lookupRow t key = none →
      loadOrStore t key cand = (cand, false, t ++ [(key, cand)]) ∧
      lookupRow (loadOrStore t key cand).2.2 key = some cand) ∧
    (∀ l, lookupRow t key = some l →
      loadOrStore t key cand = (l, true, t)) := by
  cases h : lookupRow t key with
  | none =>
    refine ⟨by simp [loadOrStore, getOrInsert, h], by
      simp [loadOrStore, getOrInsert, h], by
      simp [loadOrStore, getOrInsert, h], fun _ => ⟨by
      simp [loadOrStore, h], ?_⟩, fun l hl => by simp [h] at hl⟩
    simp only [loadOrStore, h]
    rw [lookupRow_append_of_none h]
    exact lookupRow_singleton_self key cand
  | some l =>
    exact ⟨by simp [loadOrStore, getOrInsert, h], by
      simp [loadOrStore, getOrInsert, h], by
      simp [loadOrStore, getOrInsert, h], fun hn => by simp [h] at hn,
      fun l' hl' => by
        obtain rfl : l = l' := Option.some.inj hl'
        simp [loadOrStore, h]⟩

/-! ### Characterising `poolGet` and `getLocker` -/

theorem poolGet_frame (c : Option Nat) (s : RLState Row) :
    (poolGet c s).2.locks = s.locks ∧
    (poolGet c s).2.locked = s.locked ∧
    (poolGet c s).2.everLocked = s.everLocked := by
  cases c with
  | none => exact ⟨rfl, rfl, rfl⟩
  | some i =>
    by_cases h : i < s.pool.length <;> simp [poolGet, h]

theorem poolPut_frame (keep : Bool) (x : Nat) (s : RLState Row) :
    (poolPut keep x s).locks = s.locks ∧
    (poolPut keep x s).locked = s.locked ∧
    (poolPut keep x s).everLocked = s.everLocked := by
  by_cases h : keep = true <;> simp [poolPut, h]

/-- Branch equation of `getLocker`: the row is already bound, the losing
candidate is released. -/
theorem getLocker_bound_eq (c : PoolChoice) {row : Row} {s : RLState Row}
    {l : Nat} (h : lookupRow s.locks row = some l) :
    getLocker c row s =
      (l, poolPut c.keep (poolGet c.getIdx s).1 (poolGet c.getIdx s).2) := by
  simp [getLocker, loadOrStore, (poolGet_frame c.getIdx s).1, h]

/-- Branch equation of `getLocker`: the row was unbound, the candidate is
committed. -/
theorem getLocker_unbound_eq (c : PoolChoice) {row : Row} {s : RLState Row}
    (h : lookupRow s.locks row = none) :
    getLocker c row s =
      ((poolGet c.getIdx s).1,
        { (poolGet c.getIdx s).2 with
            locks := s.locks ++ [(row, (poolGet c.getIdx s).1)] }) := by
  simp [getLocker, loadOrStore, (poolGet_frame c.getIdx s).1, h]

theorem getLocker_frame (c : PoolChoice) (row : Row) (s : RLState Row) :
    (getLocker c row s).2.locked = s.locked ∧
    (getLocker c row s).2.everLocked = s.everLocked := by
  cases h : lookupRow s.locks row with
  | some l =>
    rw [getLocker_bound_eq c h]
    refine ⟨((poolPut_frame ..).2.1).trans ?_, ((poolPut_frame ..).2.2).trans ?_⟩
    · exact (poolGet_frame c.getIdx s).2.1
    · exact (poolGet_frame c.getIdx s).2.2
  | none =>
    rw [getLocker_unbound_eq c h]
    exact ⟨(poolGet_frame c.getIdx s).2.1, (poolGet_frame c.getIdx s).2.2⟩

theorem getLocker_cases (c : PoolChoice) (row : Row) (s : RLState Row) :
    (∃ l, lookupRow s.locks row = some l ∧ (getLocker c row s).1 = l ∧
      (getLocker c row s).2.locks = s.locks) ∨
    (lookupRow s.locks row = none ∧
      (getLocker c row s).2.locks =
        s.locks ++ [(row, (getLocker c row s).1)]) := by
  cases h : lookupRow s.locks row with
  | some l =>
    refine Or.inl ⟨l, rfl, ?_, ?_⟩ <;> rw [getLocker_bound_eq c h]
    exact ((poolPut_frame ..).1).trans (poolGet_frame c.getIdx s).1
  | none =>
    refine Or.inr ⟨rfl, ?_⟩
    rw [getLocker_unbound_eq c h]

/-- The binding a call of `getLocker` leaves for its row is the locker it
returns. -/
theorem getLocker_binds (c : PoolChoice) (row : Row) (s : RLState Row) :
    lookupRow (getLocker c row s).2.locks row = some (getLocker c row s).1 := by
  rcases getLocker_cases c row s with ⟨l, hb, hr, hl⟩ | ⟨hn, hl⟩
  · rw [hl, hb, hr]
  · rw [hl, lookupRow_append_of_none hn]
    exact lookupRow_singleton_self ..

/-- `getLocker` never replaces an existing binding. -/
theorem getLocker_mono (c : PoolChoice) (row : Row) {s : RLState Row}
    {r : Row} {l : Nat} (h : lookupRow s.locks r = some l) :
    lookupRow (getLocker c row s).2.locks r = some l := by
  rcases getLocker_cases c row s with ⟨l', _, _, hl⟩ | ⟨_, hl⟩
  · rw [hl]
    exact h
  · rw [hl]
    exact lookupRow_append_some h _

/-- `getLocker` of a bound row returns the bound locker and leaves the
table unchanged. -/
theorem getLocker_of_bound (c : PoolChoice) {row : Row} {s : RLState Row}
    {l : Nat} (h : lookupRow s.locks row = some l) :
    (getLocker c row s).1 = l ∧ (getLocker c row s).2.locks = s.locks := by
  rcases getLocker_cases c row s with ⟨l', hb, hr, hl⟩ | ⟨hn, _⟩
  · rw [h] at hb
    exact ⟨hr.trans (Option.some.inj hb).symm, hl⟩
  · rw [h] at hn
    exact absurd hn (by simp)

theorem applyOp_locks (c : PoolChoice) (o : Op Row) (s : RLState Row) :
    (applyOp c o s).2.locks = (getLocker c o.row s).2.locks ∧
    (applyOp c o s).1 = (getLocker c o.row s).1 := by
  cases o <;> simp [applyOp, Op.row, lockOp, unlockOp]

/-! ### Preservation of the invariant -/

/-- Allocating a fresh locker from the factory preserves the invariant,
and the fresh id is unused everywhere. -/
theorem inv_alloc {s : RLState Row} (hs : Inv s) :
    Inv { s with nextId := s.nextId + 1 } ∧
    s.nextId < s.nextId + 1 ∧
    s.nextId ∉ s.pool ∧
    (∀ p ∈ s.locks, s.nextId ≠ p.2) ∧
    s.nextId ∉ s.everLocked := by
  obtain ⟨hk, hv, hpn, hbl, hpl, hpb, hev⟩ := hs
  refine ⟨⟨hk, hv, hpn, ?_, ?_, hpb, hev⟩, Nat.lt_succ_self _, ?_, ?_, ?_⟩
  · exact fun p hp => Nat.lt_succ_of_lt (hbl p hp)
  · exact fun x hx => Nat.lt_succ_of_lt (hpl x hx)
  · intro hmem
    exact absurd (hpl _ hmem) (Nat.lt_irrefl _)
  · intro p hp heq
    have := hbl p hp
    omega
  · intro hmem
    obtain ⟨p, hp, hpe⟩ := hev _ hmem
    have := hbl p hp
    omega

/-- Taking an idle locker out of the pool preserves the invariant, and the
taken id is absent from the remaining pool, the table and the lock
history. -/
theorem inv_take {s : RLState Row} (hs : Inv s) {i : Nat}
    (h : i < s.pool.length) :
    Inv { s with pool := s.pool.eraseIdx i } ∧
    s.pool.get ⟨i, h⟩ < s.nextId ∧
    s.pool.get ⟨i, h⟩ ∉ s.pool.eraseIdx i ∧
    (∀ p ∈ s.locks, s.pool.get ⟨i, h⟩ ≠ p.2) ∧
    s.pool.get ⟨i, h⟩ ∉ s.everLocked := by
  obtain ⟨hk, hv, hpn, hbl, hpl, hpb, hev⟩ := hs
  have hmem : s.pool.get ⟨i, h⟩ ∈ s.pool := List.get_mem s.pool i h
  have hsub : ∀ x ∈ s.pool.eraseIdx i, x ∈ s.pool :=
    fun x hx => (List.eraseIdx_sublist s.pool i).subset hx
  refine ⟨⟨hk, hv, hpn.sublist (List.eraseIdx_sublist s.pool i), hbl,
      fun x hx => hpl x (hsub x hx), fun x hx => hpb x (hsub x hx), hev⟩,
    hpl _ hmem, ?_, hpb _ hmem, ?_⟩
  · rw [← hpn.erase_get ⟨i, h⟩]
    exact hpn.not_mem_erase
  · intro hmem2
    obtain ⟨p, hp, hpe⟩ := hev _ hmem2
    exact hpb _ hmem p hp hpe.symm

/-- `Pool.Get` preserves the invariant; the candidate it hands out is not
in the remaining pool, not bound in the table, and never locked. -/
theorem poolGet_inv {s : RLState Row} (hs : Inv s) (c : Option Nat) :
    Inv (poolGet c s).2 ∧
    (poolGet c s).1 < (poolGet c s).2.nextId ∧
    (poolGet c s).1 ∉ (poolGet c s).2.pool ∧
    (∀ p ∈ (poolGet c s).2.locks, (poolGet c s).1 ≠ p.2) ∧
    (poolGet c s).1 ∉ (poolGet c s).2.everLocked := by
  cases c with
  | none =>
    obtain ⟨hi, _, hp, hb, he⟩ := inv_alloc hs
    exact ⟨hi, Nat.lt_succ_self _, hp, hb, he⟩
  | some i =>
    by_cases h : i < s.pool.length
    · simp only [poolGet, dif_pos h]
      obtain ⟨hi, hlt, hp, hb, he⟩ := inv_take hs h
      exact ⟨hi, hlt, hp, hb, he⟩
    · simp only [poolGet, dif_neg h]
      obtain ⟨hi, _, hp, hb, he⟩ := inv_alloc hs
      exact ⟨hi, Nat.lt_succ_self _, hp, hb, he⟩

/-- `getLocker` preserves the invariant. -/
theorem getLocker_inv {s : RLState Row} (hs : Inv s) (c : PoolChoice)
    (row : Row) : Inv (getLocker c row s).2 := by
  obtain ⟨hi1, hlt, hnp, hnb, hne⟩ := poolGet_inv hs c.getIdx
  have hlocks := (poolGet_frame c.getIdx s).1
  cases h : lookupRow s.locks row with
  | some l =>
    rw [getLocker_bound_eq c h]
    obtain ⟨hk, hv, hpn, hbl, hpl, hpb, hev⟩ := hi1
    by_cases hkeep : c.keep = true
    · simp only [poolPut, hkeep, if_true]
      refine ⟨hk, hv, List.nodup_cons.2 ⟨hnp, hpn⟩, hbl, ?_, ?_, hev⟩
      · intro x hx
        rcases List.mem_cons.1 hx with rfl | hx2
        · exact hlt
        · exact hpl x hx2
      · intro x hx
        rcases List.mem_cons.1 hx with rfl | hx2
        · exact hnb
        · exact hpb x hx2
    · simp only [poolPut, hkeep, if_false]
      exact ⟨hk, hv, hpn, hbl, hpl, hpb, hev⟩
  | none =>
    rw [getLocker_unbound_eq c h]
    obtain ⟨hk, hv, hpn, hbl, hpl, hpb, hev⟩ := hi1
    rw [hlocks] at hk hv hbl hpb hev hnb
    have hkey : row ∉ s.locks.map Prod.fst := by
      intro hmem
      obtain ⟨p, hp, hpe⟩ := List.mem_map.1 hmem
      exact (lookupRow_none_iff.1 h p hp) hpe
    have hval : (poolGet c.getIdx s).1 ∉ s.locks.map Prod.snd := by
      intro hmem
      obtain ⟨p, hp, hpe⟩ := List.mem_map.1 hmem
      exact hnb p hp hpe.symm
    refine ⟨?_, ?_, hpn, ?_, hpl, ?_, ?_⟩
    · rw [List.map_append]
      refine List.Nodup.append hk (List.nodup_singleton _) ?_
      intro a ha hb
      rw [List.mem_singleton.1 hb] at ha
      exact hkey ha
    · rw [List.map_append]
      refine List.Nodup.append hv (List.nodup_singleton _) ?_
      intro a ha hb
      rw [List.mem_singleton.1 hb] at ha
      exact hval ha
    · intro p hp
      rcases List.mem_append.1 hp with hp1 | hp2
      · exact hbl p hp1
      · rw [List.mem_singleton.1 hp2]
        exact hlt
    · intro x hx p hp
      rcases List.mem_append.1 hp with hp1 | hp2
      · exact hpb x hx p hp1
      · rw [List.mem_singleton.1 hp2]
        intro heq
        rw [heq] at hx
        exact hnp hx
    · intro x hx
      obtain ⟨p, hp, hpe⟩ := hev x hx
      exact ⟨p, List.mem_append_left _ hp, hpe⟩

/-- Every facade operation preserves the invariant. -/
theorem applyOp_inv {s : RLState Row} (hs : Inv s) (c : PoolChoice)
    (o : Op Row) : Inv (applyOp c o s).2 := by
  have hgi := getLocker_inv hs c o.row
  cases o with
  | getL r => exact hgi
  | unlock r =>
    obtain ⟨hk, hv, hpn, hbl, hpl, hpb, hev⟩ := hgi
    exact ⟨hk, hv, hpn, hbl, hpl, hpb, hev⟩
  | lock r =>
    obtain ⟨hk, hv, hpn, hbl, hpl, hpb, hev⟩ := hgi
    refine ⟨hk, hv, hpn, hbl, hpl, hpb, ?_⟩
    intro x hx
    rcases List.mem_cons.1 hx with rfl | hx2
    · exact ⟨_, lookupRow_mem (getLocker_binds c r s), rfl⟩
    · exact hev x hx2

theorem initState_inv : Inv (initState : RLState Row) := by
  refine ⟨?_, ?_, ?_, ?_, ?_, ?_, ?_⟩ <;> simp [initState]

theorem runFrom_inv {s : RLState Row} (hs : Inv s) (cs : Nat → PoolChoice)
    (k : Nat) (ops : List (Op Row)) : Inv (runFrom cs k ops s).2 := by
  induction ops generalizing s k with
  | nil => exact hs
  | cons o rest ih => exact ih (applyOp_inv hs (cs k) o) (k + 1)

theorem run_inv (cs : Nat → PoolChoice) (ops : List (Op Row)) :
    Inv (run cs ops).2 :=
  runFrom_inv initState_inv cs 0 ops

/-! ### Runs: permanence of bindings and the trace -/

theorem runFrom_mono (cs : Nat → PoolChoice) (k : Nat) (ops : List (Op Row))
    {s : RLState Row} {r : Row} {l : Nat}
    (h : lookupRow s.locks r = some l) :
    lookupRow (runFrom cs k ops s).2.locks r = some l := by
  induction ops generalizing s k with
  | nil => exact h
  | cons o rest ih =>
    have h2 : lookupRow (applyOp (cs k) o s).2.locks r = some l := by
      rw [(applyOp_locks (cs k) o s).1]
      exact getLocker_mono (cs k) o.row h
    exact ih (k + 1) h2

/-- The trace entry of each operation is the binding its row has in the
final state. -/
theorem runFrom_trace_binding (cs : Nat → PoolChoice) (k : Nat)
    (ops : List (Op Row)) (s : RLState Row) (i : Nat) (hi : i < ops.length) :
    lookupRow (runFrom cs k ops s).2.locks ((ops.get ⟨i, hi⟩).row) =
      some ((runFrom cs k ops s).1.getD i 0) := by
  induction ops generalizing s k i with
  | nil => exact absurd hi (by simp)
  | cons o rest ih =>
    cases i with
    | zero =>
      have hb : lookupRow (applyOp (cs k) o s).2.locks o.row =
          some (applyOp (cs k) o s).1 := by
        rw [(applyOp_locks (cs k) o s).1, (applyOp_locks (cs k) o s).2]
        exact getLocker_binds (cs k) o.row s
      have hm := runFrom_mono cs (k + 1) rest hb
      simpa [runFrom] using hm
    | succ i' =>
      have hi' : i' < rest.length := by simpa using hi
      simpa [runFrom] using ih (k + 1) (applyOp (cs k) o s).2 i' hi'

/-- Two operations resolve the same locker exactly when they address the
same row. -/
theorem run_trace_eq_iff (cs : Nat → PoolChoice) (ops : List (Op Row))
    {i j : Nat} (hi : i < ops.length) (hj : j < ops.length) :
    ((run cs ops).1.getD i 0 = (run cs ops).1.getD j 0 ↔
      (ops.get ⟨i, hi⟩).row = (ops.get ⟨j, hj⟩).row) := by
  have hb_i : lookupRow (run cs ops).2.locks ((ops.get ⟨i, hi⟩).row) =
      some ((run cs ops).1.getD i 0) :=
    runFrom_trace_binding cs 0 ops initState i hi
  have hb_j : lookupRow (run cs ops).2.locks ((ops.get ⟨j, hj⟩).row) =
      some ((run cs ops).1.getD j 0) :=
    runFrom_trace_binding cs 0 ops initState j hj
  constructor
  · intro h
    rw [h] at hb_i
    exact mem_snd_inj (run_inv cs ops).valsNodup (lookupRow_mem hb_i)
      (lookupRow_mem hb_j)
  · intro h
    rw [h] at hb_i
    exact Option.some.inj (hb_i.symm.trans hb_j)

theorem applyOp_none (c : PoolChoice) (o : Op Row) {s : RLState Row}
    {r : Row} (h : lookupRow s.locks r = none) (hne : o.row ≠ r) :
    lookupRow (applyOp c o s).2.locks r = none := by
  rw [(applyOp_locks c o s).1]
  rcases getLocker_cases c o.row s with ⟨l, _, _, hl⟩ | ⟨_, hl⟩
  · rw [hl]
    exact h
  · rw [hl, lookupRow_append_of_none h]
    simp [lookupRow, hne]

theorem runFrom_none (cs : Nat → PoolChoice) (k : Nat) (ops : List (Op Row))
    {s : RLState Row} {r : Row} (h : lookupRow s.locks r = none)
    (hr : ∀ o ∈ ops, o.row ≠ r) :
    lookupRow (runFrom cs k ops s).2.locks r = none := by
  induction ops generalizing s k with
  | nil => exact h
  | cons o rest ih =>
    exact ih (k + 1) (applyOp_none (cs k) o h (hr o (List.mem_cons_self o rest)))
      (fun o' ho' => hr o' (List.mem_cons_of_mem _ ho'))

theorem runFrom_bound_of_elem (cs : Nat → PoolChoice) (k : Nat)
    (ops : List (Op Row)) (s : RLState Row) {r : Row}
    (hex : ∃ o ∈ ops, o.row = r) :
    (lookupRow (runFrom cs k ops s).2.locks r).isSome = true := by
  induction ops generalizing s k with
  | nil => simp at hex
  | cons o rest ih =>
    by_cases ho : o.row = r
    · have hb : lookupRow (applyOp (cs k) o s).2.locks r =
          some (applyOp (cs k) o s).1 := by
        rw [← ho, (applyOp_locks (cs k) o s).1, (applyOp_locks (cs k) o s).2]
        exact getLocker_binds (cs k) o.row s
      have hm := runFrom_mono cs (k + 1) rest hb
      simp only [runFrom]
      rw [hm]
      rfl
    · obtain ⟨o', ho', hr'⟩ := hex
      rcases List.mem_cons.1 ho' with rfl | ho2
      · exact absurd hr' ho
      · exact ih (k + 1) (applyOp (cs k) o s).2 ⟨o', ho2, hr'⟩

/-- A row is bound after a run from the initial state exactly when some
operation of the run addressed it. -/
theorem run_bound_iff (cs : Nat → PoolChoice) (ops : List (Op Row)) (r : Row) :
    (lookupRow (run cs ops).2.locks r).isSome = true ↔
      ∃ o ∈ ops, o.row = r := by
  constructor
  · intro h
    by_contra hne
    push_neg at hne
    have h0 : lookupRow (initState : RLState Row).locks r = none := by
      simp [initState, lookupRow]
    have hn := runFrom_none cs 0 ops h0 hne
    rw [show run cs ops = runFrom cs 0 ops initState from rfl, hn] at h
    simp at h
  · intro hex
    exact runFrom_bound_of_elem cs 0 ops initState hex

/-! ### Claims about sequential runs -/

/-- Claim C2: for every sequence of Lock/Unlock/getLocker operations on
one RowLock, all getLocker resolutions with the same row key return the
same Locker instance, namely the one bound to that row in the table; so at
most one Locker is ever associated with a row. -/
theorem same_row_same_locker (cs : Nat → PoolChoice) (ops : List (Op Row))
    (i j : Nat) (hi : i < ops.length) (hj : j < ops.length)
    (hrow : (ops.get ⟨i, hi⟩).row = (ops.get ⟨j, hj⟩).row) :
    (run cs ops).1.getD i 0 = (run cs ops).1.getD j 0 ∧
    lookupRow (run cs ops).2.locks ((ops.get ⟨i, hi⟩).row) =
      some ((run cs ops).1.getD i 0) :=
  ⟨(run_trace_eq_iff cs ops hi hj).2 hrow,
    runFrom_trace_binding cs 0 ops initState i hi⟩

/-- Witness for C2: a Lock and a getLocker on row 1 resolve the same
locker. -/
theorem same_row_same_locker_witness :
    (run freshChoices [Op.lock 1, Op.getL 1]).1.getD 0 0 =
      (run freshChoices [Op.lock 1, Op.getL 1]).1.getD 1 0 ∧
    lookupRow (run freshChoices [Op.lock 1, Op.getL 1]).2.locks
      (([Op.lock (1 : Nat), Op.getL 1].get ⟨0, by decide⟩).row) =
      some ((run freshChoices [Op.lock 1, Op.getL 1]).1.getD 0 0) :=
  same_row_same_locker freshChoices [Op.lock 1, Op.getL 1] 0 1 (by decide)
    (by decide) (by decide)

/-- Claim C3: bindings are permanent: once a row key is bound to a locker,
no later sequence of operations, with any keys, replaces that binding or
removes the key. -/
theorem bindings_permanent (s : RLState Row) (r : Row) (l : Nat)
    (h : lookupRow s.locks r = some l) (cs : Nat → PoolChoice) (k : Nat)
    (ops : List (Op Row)) :
    lookupRow (runFrom cs k ops s).2.locks r = some l :=
  runFrom_mono cs k ops h

/-- Witness for C3: the binding 1 to 0 survives an Unlock, a Lock on
another key and a getLocker. -/
theorem bindings_permanent_witness :
    lookupRow (runFrom freshChoices 4 [Op.unlock 1, Op.lock 2, Op.getL 3]
      { locks := [(1, 0)], pool := [], nextId := 1, locked := [],
        everLocked := [] }).2.locks (1 : Nat) = some 0 :=
  bindings_permanent
    { locks := [(1, 0)], pool := [], nextId := 1, locked := [],
      everLocked := [] } 1 0 (by decide) freshChoices 4
    [Op.unlock 1, Op.lock 2, Op.getL 3]

/-- Claim C4: pool transparency.  For one operation sequence and any two
resolutions of the pool nondeterminism (in particular, an always-fresh
pool versus any recycling one), the observable behaviour is identical:
the same pairs of calls resolve equal lockers, and the same rows are
bound. -/
theorem pool_transparency (ops : List (Op Row)) (cs1 cs2 : Nat → PoolChoice)
    (i j : Nat) (hi : i < ops.length) (hj : j < ops.length) :
    ((run cs1 ops).1.getD i 0 = (run cs1 ops).1.getD j 0 ↔
      (run cs2 ops).1.getD i 0 = (run cs2 ops).1.getD j 0) ∧
    (∀ r : Row, (lookupRow (run cs1 ops).2.locks r).isSome = true ↔
      (lookupRow (run cs2 ops).2.locks r).isSome = true) := by
  constructor
  · rw [run_trace_eq_iff cs1 ops hi hj, run_trace_eq_iff cs2 ops hi hj]
  · intro r
    rw [run_bound_iff cs1 ops r, run_bound_iff cs2 ops r]

/-- Witness for C4: an always-fresh pool against an always-recycling
pool on three operations. -/
theorem pool_transparency_witness :
    ((run freshChoices [Op.lock 1, Op.lock 2, Op.getL 1]).1.getD 0 0 =
        (run freshChoices [Op.lock 1, Op.lock 2, Op.getL 1]).1.getD 2 0 ↔
      (run (fun _ => { getIdx := some 0, keep := true })
          [Op.lock 1, Op.lock 2, Op.getL 1]).1.getD 0 0 =
        (run (fun _ => { getIdx := some 0, keep := true })
          [Op.lock 1, Op.lock 2, Op.getL 1]).1.getD 2 0) ∧
    (∀ r : Nat,
      (lookupRow (run freshChoices
        [Op.lock 1, Op.lock 2, Op.getL 1]).2.locks r).isSome = true ↔
      (lookupRow (run (fun _ => { getIdx := some 0, keep := true })
        [Op.lock 1, Op.lock 2, Op.getL 1]).2.locks r).isSome = true) :=
  pool_transparency [Op.lock 1, Op.lock 2, Op.getL 1] freshChoices
    (fun _ => { getIdx := some 0, keep := true }) 0 2 (by decide) (by decide)

/-- Claim C6 counterexample: on a fresh RowLock a single Unlock call — a
sequence with no Lock in it — leaves row 5 bound, so a key can become
bound although Lock was never called with it. -/
theorem bound_without_lock_cex :
    (([Op.unlock (5 : Nat)].all (fun o => ! o.isLock)) = true) ∧
    lookupRow (run freshChoices [Op.unlock (5 : Nat)]).2.locks 5 =
      some 0 := by
  exact ⟨rfl, rfl⟩

/-- Claim C6 (amended): a row key is bound in the locks table exactly when
some operation — Lock, Unlock or getLocker, all of which resolve through
getLocker — has been called with that key; the binding is created by the
first such call, which need not be a Lock. -/
theorem bound_iff_resolved (cs : Nat → PoolChoice) (ops : List (Op Row))
    (r : Row) :
    (lookupRow (run cs ops).2.locks r).isSome = true ↔
      ∃ o ∈ ops, o.row = r :=
  run_bound_iff cs ops r

/-- Claim C7: in every reachable state of a RowLock the lockers bound in
the table are pairwise distinct instances, and no locker idle in the pool
is simultaneously bound in the table. -/
theorem lockers_pairwise_distinct (cs : Nat → PoolChoice)
    (ops : List (Op Row)) :
    (((run cs ops).2.locks.map Prod.snd).Nodup) ∧
    (∀ x ∈ (run cs ops).2.pool, ∀ p ∈ (run cs ops).2.locks, x ≠ p.2) :=
  ⟨(run_inv cs ops).valsNodup, (run_inv cs ops).poolBound⟩

/-- Claim C10: Unlock on a row with no existing binding does not fail at
resolution: it acquires a candidate, binds it to the key permanently, and
invokes the locker-level Unlock on that candidate — a locker that was
never bound to any row before and was never locked. -/
theorem unlock_unbound_binds (cs : Nat → PoolChoice) (ops : List (Op Row))
    (c : PoolChoice) (r : Row)
    (h : lookupRow (run cs ops).2.locks r = none) :
    (unlockOp c r (run cs ops).2).1 = (poolGet c.getIdx (run cs ops).2).1 ∧
    lookupRow (unlockOp c r (run cs ops).2).2.locks r =
      some ((unlockOp c r (run cs ops).2).1) ∧
    (unlockOp c r (run cs ops).2).1 ∉ (run cs ops).2.everLocked ∧
    (∀ r', lookupRow (run cs ops).2.locks r' ≠
      some ((unlockOp c r (run cs ops).2).1)) ∧
    (∀ cs' k' ops', lookupRow
      (runFrom cs' k' ops' (unlockOp c r (run cs ops).2).2).2.locks r =
      some ((unlockOp c r (run cs ops).2).1)) := by
  have hinv := run_inv cs ops
  obtain ⟨_, _, _, hnb, hne⟩ := poolGet_inv hinv c.getIdx
  have hevf := (poolGet_frame c.getIdx (run cs ops).2).2.2
  have hlf := (poolGet_frame c.getIdx (run cs ops).2).1
  have h1 : (unlockOp c r (run cs ops).2).1 =
      (poolGet c.getIdx (run cs ops).2).1 := by
    show (getLocker c r (run cs ops).2).1 = _
    rw [getLocker_unbound_eq c h]
  have h2 : lookupRow (unlockOp c r (run cs ops).2).2.locks r =
      some ((unlockOp c r (run cs ops).2).1) :=
    getLocker_binds c r (run cs ops).2
  refine ⟨h1, h2, ?_, ?_, ?_⟩
  · rw [h1]
    rw [hevf] at hne
    exact hne
  · intro r' hc
    rw [h1] at hc
    rw [hlf] at hnb
    exact hnb _ (lookupRow_mem hc) rfl
  · intro cs' k' ops'
    exact runFrom_mono cs' k' ops' h2

/-- Witness for C10: the first operation ever is an Unlock on row 3. -/
theorem unlock_unbound_binds_witness :
    (unlockOp { getIdx := none, keep := false } 3
        (run freshChoices ([] : List (Op Nat))).2).1 =
      (poolGet (Option.none) (run freshChoices ([] : List (Op Nat))).2).1 ∧
    lookupRow (unlockOp { getIdx := none, keep := false } 3
        (run freshChoices ([] : List (Op Nat))).2).2.locks 3 =
      some ((unlockOp { getIdx := none, keep := false } 3
        (run freshChoices ([] : List (Op Nat))).2).1) ∧
    (unlockOp { getIdx := none, keep := false } 3
        (run freshChoices ([] : List (Op Nat))).2).1 ∉
      (run freshChoices ([] : List (Op Nat))).2.everLocked ∧
    (∀ r', lookupRow (run freshChoices ([] : List (Op Nat))).2.locks r' ≠
      some ((unlockOp { getIdx := none, keep := false } 3
        (run freshChoices ([] : List (Op Nat))).2).1)) ∧
    (∀ cs' k' ops', lookupRow (runFrom cs' k' ops'
        (unlockOp { getIdx := none, keep := false } 3
          (run freshChoices ([] : List (Op Nat))).2).2).2.locks 3 =
      some ((unlockOp { getIdx := none, keep := false } 3
        (run freshChoices ([] : List (Op Nat))).2).1)) :=
  unlock_unbound_binds freshChoices [] { getIdx := none, keep := false } 3
    (by decide)

/-! ### Claim C9: the facade never faults -/

theorem poolGetD_ok {s : DState Row} (hs : DOk s) (c : Option Nat) :
    DOk (poolGetD c s).2 ∧ (∃ n, (poolGetD c s).1 = GoVal.lk n) ∧
    (poolGetD c s).2.locks = s.locks := by
  cases c with
  | none => exact ⟨⟨hs.1, hs.2⟩, ⟨s.nextId, rfl⟩, rfl⟩
  | some i =>
    by_cases h : i < s.pool.length
    · simp only [poolGetD, dif_pos h]
      refine ⟨⟨hs.1, fun v hv =>
        hs.2 v ((List.eraseIdx_sublist _ _).subset hv)⟩, ?_, trivial⟩
      exact hs.2 _ (List.get_mem s.pool i h)
    · simp only [poolGetD, dif_neg h]
      exact ⟨⟨hs.1, hs.2⟩, ⟨s.nextId, rfl⟩, trivial⟩

/-- On a well-formed state the type assertion at the end of `getLocker`
always succeeds, and well-formedness is preserved. -/
theorem getLockerD_ok {s : DState Row} (hs : DOk s) (c : PoolChoice)
    (row : Row) :
    ∃ n s2, getLockerD c row s = some (n, s2) ∧ DOk s2 := by
  obtain ⟨⟨hdl, hdp⟩, ⟨n0, hn0⟩, hlocks⟩ := poolGetD_ok hs c.getIdx
  cases hl : lookupRow (poolGetD c.getIdx s).2.locks row with
  | some v =>
    obtain ⟨n, rfl⟩ := hdl _ (lookupRow_mem hl)
    refine ⟨n, poolPutD c.keep (poolGetD c.getIdx s).1 (poolGetD c.getIdx s).2,
      by simp [getLockerD, loadOrStore, hl], ?_⟩
    by_cases hkeep : c.keep = true
    · simp only [poolPutD, hkeep, if_true]
      refine ⟨hdl, ?_⟩
      intro w hw
      rcases List.mem_cons.1 hw with rfl | hw2
      · exact ⟨n0, hn0⟩
      · exact hdp w hw2
    · simp only [poolPutD, hkeep, if_false]
      exact ⟨hdl, hdp⟩
  | none =>
    refine ⟨n0, { (poolGetD c.getIdx s).2 with
        locks := (poolGetD c.getIdx s).2.locks ++
          [(row, (poolGetD c.getIdx s).1)] },
      by simp [getLockerD, loadOrStore, hl, hn0], ?_⟩
    refine ⟨?_, hdp⟩
    intro p hp
    rcases List.mem_append.1 hp with hp1 | hp2
    · exact hdl p hp1
    · rw [List.mem_singleton.1 hp2]
      exact ⟨n0, hn0⟩

theorem runD_ok {s : DState Row} (hs : DOk s) (cs : Nat → PoolChoice)
    (k : Nat) (ops : List (Op Row)) :
    ∃ s2, runD cs k ops s = some s2 ∧ DOk s2 := by
  induction ops generalizing s k with
  | nil => exact ⟨s, rfl, hs⟩
  | cons o rest ih =>
    obtain ⟨n, s2, he, hok⟩ := getLockerD_ok hs (cs k) o.row
    obtain ⟨s3, he', hok'⟩ := ih hok (k + 1)
    refine ⟨s3, ?_, hok'⟩
    simp only [runD, he]
    exact he'

/-- Claim C9: with a factory that always returns a non-nil Locker, no
facade operation ever faults inside facade code: in every run, every
`getLocker` resolution — in particular its final type assertion of the
stored value to a Locker — succeeds. -/
theorem facade_no_faults (cs : Nat → PoolChoice) (ops : List (Op Row)) :
    (runD cs 0 ops initStateD).isSome = true := by
  have hD : DOk (initStateD : DState Row) :=
    ⟨by simp [initStateD], by simp [initStateD]⟩
  obtain ⟨s2, he, _⟩ := runD_ok hD cs 0 ops
  rw [he]
  rfl

/-! ### Claim C8: the concurrent model -/

theorem get?_some_lt {ts : List (TPC Row)} {i : Nat} {q : TPC Row}
    (h : ts.get? i = some q) : i < ts.length := by
  rcases List.get?_eq_some.mp h with ⟨hl, _⟩
  exact hl

theorem setThread_get_self {ts : List (TPC Row)} {i : Nat} (p : TPC Row)
    (h : i < ts.length) : (setThread ts i p).get? i = some p :=
  List.get?_set_eq_of_lt p h

theorem setThread_get_ne {ts : List (TPC Row)} {i j : Nat} (p : TPC Row)
    (h : i ≠ j) : (setThread ts i p).get? j = ts.get? j :=
  List.get?_set_ne p ts h

theorem replicate_get?_idle {n i : Nat} {q : TPC Row}
    (h : (List.replicate n (TPC.idle : TPC Row)).get? i = some q) :
    q = TPC.idle := by
  rcases List.get?_eq_some.mp h with ⟨hl, he⟩
  simpa using he.symm

theorem cinv_init (n : Nat) : CInv (initC n : CState Row) := by
  refine ⟨initState_inv, ?_, ?_, ?_, ?_, ?_, ?_⟩
  · intro i r l h
    exact absurd (replicate_get?_idle h) (by simp)
  · intro i r l h
    exact absurd (replicate_get?_idle h) (by simp)
  · intro i r l h
    exact absurd (replicate_get?_idle h) (by simp)
  · intro x hx
    exact absurd hx (by simp [initC, initState])
  · intro i j r r' l l' hij hi hj
    exact absurd (replicate_get?_idle hi) (by simp)
  · simp [initC, initState]

theorem cinv_resolve {s : CState Row} (hs : CInv s) (i : Nat) (r : Row)
    (c : PoolChoice) (hi : s.threads.get? i = some TPC.idle) :
    CInv (resolveStep c i r s) := by
  obtain ⟨hinv, hwb, hcb, hch, hlc, hci, hln⟩ := hs
  have hlen := get?_some_lt hi
  have hfr := getLocker_frame c r s.rl
  refine ⟨getLocker_inv hinv c r, ?_, ?_, ?_, ?_, ?_, ?_⟩
  · intro j r' l' hj
    by_cases hij : i = j
    · subst hij
      rw [show (resolveStep c i r s).threads = setThread s.threads i
          (TPC.waiting r (getLocker c r s.rl).1) from rfl,
        setThread_get_self _ hlen] at hj
      obtain ⟨rfl, rfl⟩ : r = r' ∧ (getLocker c r s.rl).1 = l' := by
        cases Option.some.inj hj
        exact ⟨rfl, rfl⟩
      exact getLocker_binds c r s.rl
    · rw [show (resolveStep c i r s).threads = setThread s.threads i
          (TPC.waiting r (getLocker c r s.rl).1) from rfl,
        setThread_get_ne _ hij] at hj
      exact getLocker_mono c r (hwb j r' l' hj)
  · intro j r' l' hj
    by_cases hij : i = j
    · subst hij
      rw [show (resolveStep c i r s).threads = setThread s.threads i
          (TPC.waiting r (getLocker c r s.rl).1) from rfl,
        setThread_get_self _ hlen] at hj
      exact absurd (Option.some.inj hj) (by simp)
    · rw [show (resolveStep c i r s).threads = setThread s.threads i
          (TPC.waiting r (getLocker c r s.rl).1) from rfl,
        setThread_get_ne _ hij] at hj
      exact getLocker_mono c r (hcb j r' l' hj)
  · intro j r' l' hj
    by_cases hij : i = j
    · subst hij
      rw [show (resolveStep c i r s).threads = setThread s.threads i
          (TPC.waiting r (getLocker c r s.rl).1) from rfl,
        setThread_get_self _ hlen] at hj
      exact absurd (Option.some.inj hj) (by simp)
    · rw [show (resolveStep c i r s).threads = setThread s.threads i
          (TPC.waiting r (getLocker c r s.rl).1) from rfl,
        setThread_get_ne _ hij] at hj
      rw [show (resolveStep c i r s).rl = (getLocker c r s.rl).2 from rfl,
        hfr.1]
      exact hch j r' l' hj
  · intro x hx
    rw [show (resolveStep c i r s).rl = (getLocker c r s.rl).2 from rfl,
      hfr.1] at hx
    obtain ⟨j, r', hj⟩ := hlc x hx
    have hij : i ≠ j := by
      intro he
      rw [← he, hi] at hj
      exact absurd (Option.some.inj hj) (by simp)
    exact ⟨j, r', by
      rw [show (resolveStep c i r s).threads = setThread s.threads i
          (TPC.waiting r (getLocker c r s.rl).1) from rfl,
        setThread_get_ne _ hij]
      exact hj⟩
  · intro j k r' r'' l' l'' hjk hj hk
    have hij : i ≠ j := by
      intro he
      rw [show (resolveStep c i r s).threads = setThread s.threads i
          (TPC.waiting r (getLocker c r s.rl).1) from rfl, ← he,
        setThread_get_self _ hlen] at hj
      exact absurd (Option.some.inj hj) (by simp)
    have hik : i ≠ k := by
      intro he
      rw [show (resolveStep c i r s).threads = setThread s.threads i
          (TPC.waiting r (getLocker c r s.rl).1) from rfl, ← he,
        setThread_get_self _ hlen] at hk
      exact absurd (Option.some.inj hk) (by simp)
    rw [show (resolveStep c i r s).threads = setThread s.threads i
        (TPC.waiting r (getLocker c r s.rl).1) from rfl,
      setThread_get_ne _ hij] at hj
    rw [show (resolveStep c i r s).threads = setThread s.threads i
        (TPC.waiting r (getLocker c r s.rl).1) from rfl,
      setThread_get_ne _ hik] at hk
    exact hci j k r' r'' l' l'' hjk hj hk
  · rw [show (resolveStep c i r s).rl = (getLocker c r s.rl).2 from rfl,
      hfr.1]
    exact hln

theorem cinv_acquire {s : CState Row} (hs : CInv s) (i : Nat) (r : Row)
    (l : Nat) (hi : s.threads.get? i = some (TPC.waiting r l))
    (hfree : l ∉ s.rl.locked) : CInv (acquireStep i r l s) := by
  obtain ⟨hinv, hwb, hcb, hch, hlc, hci, hln⟩ := hs
  have hlen := get?_some_lt hi
  have hlk : lookupRow s.rl.locks r = some l := hwb i r l hi
  have hth : (acquireStep i r l s).threads =
      setThread s.threads i (TPC.inCrit r l) := rfl
  refine ⟨?_, ?_, ?_, ?_, ?_, ?_, ?_⟩
  · obtain ⟨hk, hv, hpn, hbl, hpl, hpb, hev⟩ := hinv
    refine ⟨hk, hv, hpn, hbl, hpl, hpb, ?_⟩
    intro x hx
    rcases List.mem_cons.1 hx with rfl | hx2
    · exact ⟨(r, x), lookupRow_mem hlk, rfl⟩
    · exact hev x hx2
  · intro j r' l' hj
    by_cases hij : i = j
    · subst hij
      rw [hth, setThread_get_self _ hlen] at hj
      exact absurd (Option.some.inj hj) (by simp)
    · rw [hth, setThread_get_ne _ hij] at hj
      exact hwb j r' l' hj
  · intro j r' l' hj
    by_cases hij : i = j
    · subst hij
      rw [hth, setThread_get_self _ hlen] at hj
      obtain ⟨rfl, rfl⟩ : r = r' ∧ l = l' := by
        cases Option.some.inj hj
        exact ⟨rfl, rfl⟩
      exact hlk
    · rw [hth, setThread_get_ne _ hij] at hj
      exact hcb j r' l' hj
  · intro j r' l' hj
    by_cases hij : i = j
    · subst hij
      rw [hth, setThread_get_self _ hlen] at hj
      obtain ⟨rfl, rfl⟩ : r = r' ∧ l = l' := by
        cases Option.some.inj hj
        exact ⟨rfl, rfl⟩
      exact List.mem_cons_self l s.rl.locked
    · rw [hth, setThread_get_ne _ hij] at hj
      exact List.mem_cons_of_mem _ (hch j r' l' hj)
  · intro x hx
    rcases List.mem_cons.1 hx with rfl | hx2
    · exact ⟨i, r, by rw [hth, setThread_get_self _ hlen]⟩
    · obtain ⟨j, r', hj⟩ := hlc x hx2
      have hij : i ≠ j := by
        intro he
        rw [← he, hi] at hj
        exact absurd (Option.some.inj hj) (by simp)
      exact ⟨j, r', by rw [hth, setThread_get_ne _ hij]; exact hj⟩
  · intro j k r' r'' l' l'' hjk hj hk
    by_cases hij : i = j
    · subst hij
      rw [hth, setThread_get_self _ hlen] at hj
      obtain ⟨rfl, rfl⟩ : r = r' ∧ l = l' := by
        cases Option.some.inj hj
        exact ⟨rfl, rfl⟩
      rw [hth, setThread_get_ne _ hjk] at hk
      intro he
      rw [he] at hfree
      exact hfree (hch k r'' l'' hk)
    · rw [hth, setThread_get_ne _ hij] at hj
      by_cases hik : i = k
      · subst hik
        rw [hth, setThread_get_self _ hlen] at hk
        obtain ⟨rfl, rfl⟩ : r = r'' ∧ l = l'' := by
          cases Option.some.inj hk
          exact ⟨rfl, rfl⟩
        intro he
        rw [← he] at hfree
        exact hfree (hch j r' l' hj)
      · rw [hth, setThread_get_ne _ hik] at hk
        exact hci j k r' r'' l' l'' hjk hj hk
  · exact List.nodup_cons.2 ⟨hfree, hln⟩

theorem cinv_release {s : CState Row} (hs : CInv s) (i : Nat) (r : Row)
    (l : Nat) (c : PoolChoice)
    (hi : s.threads.get? i = some (TPC.inCrit r l)) :
    CInv (releaseStep c i r s) := by
  obtain ⟨hinv, hwb, hcb, hch, hlc, hci, hln⟩ := hs
  have hlen := get?_some_lt hi
  have hlk : lookupRow s.rl.locks r = some l := hcb i r l hi
  obtain ⟨gb1, gb2⟩ := getLocker_of_bound c hlk
  have hfr := getLocker_frame c r s.rl
  have hth : (releaseStep c i r s).threads =
      setThread s.threads i TPC.idle := rfl
  have hlocks : (releaseStep c i r s).rl.locks = s.rl.locks := gb2
  have hlocked : (releaseStep c i r s).rl.locked = s.rl.locked.erase l := by
    show (getLocker c r s.rl).2.locked.erase ((getLocker c r s.rl).1) = _
    rw [gb1, hfr.1]
  refine ⟨?_, ?_, ?_, ?_, ?_, ?_, ?_⟩
  · obtain ⟨hk, hv, hpn, hbl, hpl, hpb, hev⟩ := getLocker_inv hinv c r
    exact ⟨hk, hv, hpn, hbl, hpl, hpb, hev⟩
  · intro j r' l' hj
    by_cases hij : i = j
    · subst hij
      rw [hth, setThread_get_self _ hlen] at hj
      exact absurd (Option.some.inj hj) (by simp)
    · rw [hth, setThread_get_ne _ hij] at hj
      rw [hlocks]
      exact hwb j r' l' hj
  · intro j r' l' hj
    by_cases hij : i = j
    · subst hij
      rw [hth, setThread_get_self _ hlen] at hj
      exact absurd (Option.some.inj hj) (by simp)
    · rw [hth, setThread_get_ne _ hij] at hj
      rw [hlocks]
      exact hcb j r' l' hj
  · intro j r' l' hj
    by_cases hij : i = j
    · subst hij
      rw [hth, setThread_get_self _ hlen] at hj
      exact absurd (Option.some.inj hj) (by simp)
    · rw [hth, setThread_get_ne _ hij] at hj
      rw [hlocked]
      have hne : l' ≠ l := hci j i r' r l' l (fun he => hij he.symm) hj hi
      exact (List.mem_erase_of_ne hne).2 (hch j r' l' hj)
  · intro x hx
    rw [hlocked] at hx
    obtain ⟨hxl, hx2⟩ := hln.mem_erase_iff.1 hx
    obtain ⟨j, r', hj⟩ := hlc x hx2
    have hij : i ≠ j := by
      intro he
      rw [← he, hi] at hj
      have := Option.some.inj hj
      cases this
      exact hxl rfl
    exact ⟨j, r', by rw [hth, setThread_get_ne _ hij]; exact hj⟩
  · intro j k r' r'' l' l'' hjk hj hk
    have hij : i ≠ j := by
      intro he
      rw [hth, ← he, setThread_get_self _ hlen] at hj
      exact absurd (Option.some.inj hj) (by simp)
    have hik : i ≠ k := by
      intro he
      rw [hth, ← he, setThread_get_self _ hlen] at hk
      exact absurd (Option.some.inj hk) (by simp)
    rw [hth, setThread_get_ne _ hij] at hj
    rw [hth, setThread_get_ne _ hik] at hk
    exact hci j k r' r'' l' l'' hjk hj hk
  · rw [hlocked]
    exact hln.erase l

/-- Every step of the concurrent model preserves the invariant. -/
theorem cinv_step {s t : CState Row} (hs : CInv s) (h : CStep s t) :
    CInv t := by
  cases h with
  | resolve i r c hi => exact cinv_resolve hs i r c hi
  | acquire i r l hi hfree => exact cinv_acquire hs i r l hi hfree
  | release i r l c hi => exact cinv_release hs i r l c hi

/-- Every reachable state of the concurrent model satisfies the
invariant. -/
theorem reach_cinv {s : CState Row} (hs : ReachC s) : CInv s := by
  induction hs with
  | init n => exact cinv_init n
  | step _ h ih => exact cinv_step ih h

/-- Claim C8: mutual exclusion per row, and independence of distinct
rows.  In every reachable state of the concurrent model, no two distinct
threads are inside the critical section of the same row; and a thread
waiting to acquire the locker of a row no thread is critical in can
always take the acquire step — holders of other rows never block it. -/
theorem mutual_exclusion_per_row (s : CState Row) (hs : ReachC s) :
    (∀ i j r l l', i ≠ j →
      s.threads.get? i = some (TPC.inCrit r l) →
      s.threads.get? j = some (TPC.inCrit r l') → False) ∧
    (∀ i r l, s.threads.get? i = some (TPC.waiting r l) →
      (∀ j r' l', s.threads.get? j = some (TPC.inCrit r' l') → r' ≠ r) →
      l ∉ s.rl.locked ∧ CStep s (acquireStep i r l s)) := by
  obtain ⟨hinv, hwb, hcb, hch, hlc, hci, hln⟩ := reach_cinv hs
  constructor
  · intro i j r l l' hij hi hj
    have h1 := hcb i r l hi
    have h2 := hcb j r l' hj
    exact hci i j r r l l' hij hi hj
      (Option.some.inj (h1.symm.trans h2))
  · intro i r l hi hnone
    have hfree : l ∉ s.rl.locked := by
      intro hl
      obtain ⟨j, r', hj⟩ := hlc l hl
      have hb' := hcb j r' l hj
      have hbw := hwb i r l hi
      exact hnone j r' l hj
        (mem_snd_inj hinv.valsNodup (lookupRow_mem hb') (lookupRow_mem hbw))
    exact ⟨hfree, CStep.acquire s i r l hi hfree⟩

/-- Witness for C8 at a concrete reachable state: two threads, thread 0
inside the critical section of row 7 after a resolve and an acquire
step. -/
theorem mutual_exclusion_per_row_witness :
    (∀ i j r l l', i ≠ j →
      (acquireStep 0 7 0 (resolveStep { getIdx := none, keep := false } 0 7
        (initC 2 : CState Nat))).threads.get? i = some (TPC.inCrit r l) →
      (acquireStep 0 7 0 (resolveStep { getIdx := none, keep := false } 0 7
        (initC 2 : CState Nat))).threads.get? j = some (TPC.inCrit r l') →
      False) ∧
    (∀ i r l,
      (acquireStep 0 7 0 (resolveStep { getIdx := none, keep := false } 0 7
        (initC 2 : CState Nat))).threads.get? i =
          some (TPC.waiting r l) →
      (∀ j r' l',
        (acquireStep 0 7 0 (resolveStep { getIdx := none, keep := false }
          0 7 (initC 2 : CState Nat))).threads.get? j =
            some (TPC.inCrit r' l') → r' ≠ r) →
      l ∉ (acquireStep 0 7 0 (resolveStep { getIdx := none, keep := false }
          0 7 (initC 2 : CState Nat))).rl.locked ∧
        CStep (acquireStep 0 7 0 (resolveStep
          { getIdx := none, keep := false } 0 7 (initC 2 : CState Nat)))
          (acquireStep i r l (acquireStep 0 7 0 (resolveStep
            { getIdx := none, keep := false } 0 7
            (initC 2 : CState Nat))))) :=
  mutual_exclusion_per_row
    (acquireStep 0 7 0 (resolveStep { getIdx := none, keep := false } 0 7
      (initC 2 : CState Nat)))
    (ReachC.step
      (ReachC.step (ReachC.init 2)
        (CStep.resolve (initC 2 : CState Nat) 0 7
          { getIdx := none, keep := false } (by decide)))
      (CStep.acquire
        (resolveStep { getIdx := none, keep := false } 0 7
          (initC 2 : CState Nat)) 0 7 0 (by decide) (by decide)))

end Rowlock
